import Mathlib

/-!
Shallow embedding of the Huffman codec implemented in src/main.cpp
(frequency counting, tree construction, substitution-table generation,
bit packing, the container layout, compression and decompression), with
theorems checking the specification's claims against it.

Modelling conventions.

* A C++ Byte (unsigned char) is a Nat; the program only ever stores
  values below 256 in them.  uint32_t arithmetic that can actually wrap
  for inputs representable on the machine is written with an explicit
  remainder modulo 4294967296 (the encodedSize accumulator in compress
  and data.size() cast to uint32_t); frequency counts are kept as Nat,
  exact for inputs shorter than 2^32 bytes.
* A bit string (std::string of the characters '0' and '1') is a
  List Bool: false is the character '0' (LEFT_CHAR and PADDING_BIT),
  true is '1' (RIGHT_CHAR).
* A std::map is an association list with strictly ascending keys;
  assignment through operator[] is mapAssign, and iteration order is
  list order, i.e. ascending key order, exactly as for the map.
* std::priority_queue of HuffmanNode pointers with the comparator
  greater_frequency is a binary max-heap (hence a min-heap on freq)
  over an explicit vector.  Its push and pop are the push_heap and
  pop_heap algorithms of the GNU libstdc++ implementation the program
  is built against (bits/stl_heap.h): push sifts the new element up
  while the parent compares greater; pop moves the last element into a
  hole at the root, walks the hole down choosing the second child
  unless it compares less than the first, and finally sifts the moved
  element up.  The C++ standard fixes only the heap property, not the
  order of equal elements, so the extraction order at ties is that of
  this (deterministic) implementation.  The loops are phrased with an
  explicit structural fuel argument so that every definition computes
  by kernel reduction; each call site passes fuel that provably
  dominates the loop's iteration count, so the fueled function equals
  the C++ loop.
* Fallible operations return Option: none models std::istream reads
  that fail and leave their target indeterminate (read_compressed_file
  on a truncated container), top() on an empty priority_queue
  (undefined behaviour in build_huffman_tree for an empty table),
  std::string::erase past the end (decompress when padding exceeds the
  bit-string length), and a decompress loop that would never terminate
  (a single-leaf tree with a non-empty bit string).
-/

namespace Huffman

abbrev Byte := Nat

/-- The HuffmanNode struct of main.cpp: a leaf carries a byte and its
frequency; an internal node (built by the two-pointer constructor)
carries the summed frequency and owns two children.  The program never
creates a node with exactly one child. -/
inductive HuffmanNode where
  | leaf (b : Byte) (freq : Nat)
  | internal (freq : Nat) (left : HuffmanNode) (right : HuffmanNode)
deriving DecidableEq, Repr

instance : Inhabited HuffmanNode := ⟨HuffmanNode.leaf 0 0⟩

def HuffmanNode.freq : HuffmanNode → Nat
  | .leaf _ f => f
  | .internal f _ _ => f

/-- The greater_frequency comparator (main.cpp lines 38-40):
l->freq > r->freq. -/
def greater_frequency (l r : HuffmanNode) : Bool :=
  decide (r.freq < l.freq)

/-! Association-list model of std::map. -/

/-- Assignment m[b] = x on a std::map held as an ascending association
list: insert at the sorted position, overwriting an existing binding. -/
def mapAssign {α : Type} : List (Byte × α) → Byte → α → List (Byte × α)
  | [], b, x => [(b, x)]
  | (k, v) :: rest, b, x =>
    if b < k then (b, x) :: (k, v) :: rest
    else if b = k then (b, x) :: rest
    else (k, v) :: mapAssign rest b x

/-! The libstdc++ binary heap under std::priority_queue. -/

/-- The sift-up phase of std::push_heap (libstdc++ __push_heap) with the
comparator greater_frequency: while the hole is not the root and the
parent compares greater than the value, move the parent down and ascend;
finally store the value.  The first argument is structural fuel; every
call supplies fuel at least the hole index, which bounds the iteration
count since the hole index strictly decreases. -/
def siftUpAux : Nat → List HuffmanNode → Nat → HuffmanNode → List HuffmanNode
  | _, v, 0, value => v.set 0 value
  | 0, v, hole, value => v.set hole value
  | fuel + 1, v, hole + 1, value =>
    let p := hole / 2
    if greater_frequency (v.getD p default) value then
      siftUpAux fuel (v.set (hole + 1) (v.getD p default)) p value
    else
      v.set (hole + 1) value

/-- std::priority_queue::push: append the element, then sift it up. -/
def pushHeap (v : List HuffmanNode) (value : HuffmanNode) : List HuffmanNode :=
  siftUpAux v.length (v ++ [value]) v.length value

/-- The walk-down phase of libstdc++ __adjust_heap: starting from a hole
at index hole, repeatedly pick the second child (or the first, when the
second compares greater-than it under greater_frequency, i.e. has
strictly larger freq), move it into the hole and descend, while a second
child exists; if the range length is even and the hole reached the node
with only a left child, move that child up; finally sift the saved value
up from the hole.  Fuel dominates the iterations since the child index
strictly increases and is bounded by the range length. -/
def adjustLoop : Nat → List HuffmanNode → Nat → Nat → HuffmanNode → List HuffmanNode
  | 0, v, hole, _, value => siftUpAux hole v hole value
  | fuel + 1, v, hole, sc, value =>
    if sc < (v.length - 1) / 2 then
      let sc2 := 2 * (sc + 1)
      let sc3 := if greater_frequency (v.getD sc2 default) (v.getD (sc2 - 1) default)
                 then sc2 - 1 else sc2
      adjustLoop fuel (v.set hole (v.getD sc3 default)) sc3 sc3 value
    else
      if v.length % 2 = 0 ∧ sc = (v.length - 2) / 2 then
        let sc2 := 2 * (sc + 1)
        siftUpAux (sc2 - 1) (v.set hole (v.getD (sc2 - 1) default)) (sc2 - 1) value
      else
        siftUpAux hole v hole value

/-- std::priority_queue::pop: return the top (front of the vector) and
the remaining heap: the last element is removed from the back and
re-inserted through __adjust_heap on the shortened range (libstdc++
__pop_heap); on a one-element heap pop_heap does nothing and pop_back
empties the vector.  The empty case never occurs in the program (pop is
always guarded by a size check); it is given a vacuous value to keep the
function total. -/
def popHeap (v : List HuffmanNode) : HuffmanNode × List HuffmanNode :=
  match v with
  | [] => (default, [])
  | [x] => (x, [])
  | x :: _ :: _ =>
    let n := v.length
    let value := v.getD (n - 1) default
    (x, adjustLoop (n - 1) (v.take (n - 1)) 0 0 value)

/-- The merge loop of build_huffman_tree (main.cpp lines 237-243): while
more than one node remains, extract two, the first becoming the left
child and the second the right child of a fresh internal node whose
frequency is their sum, and push the merged node.  Each iteration
shrinks the heap by one, so fuel equal to the initial size dominates the
loop. -/
def buildLoop : Nat → List HuffmanNode → List HuffmanNode
  | 0, v => v
  | fuel + 1, v =>
    if 1 < v.length then
      let l := (popHeap v).1
      let v1 := (popHeap v).2
      let r := (popHeap v1).1
      let v2 := (popHeap v1).2
      buildLoop fuel (pushHeap v2 (HuffmanNode.internal (l.freq + r.freq) l r))
    else v

/-- build_huffman_tree (main.cpp lines 228-246): push a leaf per
frequency-table entry in map order, merge until one node remains, and
return the top.  top() on an empty heap, reached exactly when the
frequency table is empty, is undefined behaviour in C++ and is modelled
as none. -/
def build_huffman_tree (frequencies : List (Byte × Nat)) : Option HuffmanNode :=
  let v := frequencies.foldl (fun acc p => pushHeap acc (HuffmanNode.leaf p.1 p.2)) []
  (buildLoop v.length v).head?

/-- create_substitution_table (main.cpp lines 211-226): depth-first
walk; at a leaf (no children) record the accumulated bit string for the
leaf's byte in the table (a std::map taken by reference, threaded here),
then recurse left with '0' appended and right with '1' appended.  The
recursive calls on a leaf's two null children return immediately. -/
def create_substitution_table : HuffmanNode → List (Byte × List Bool) → List Bool → List (Byte × List Bool)
  | .leaf b _, tbl, pre => mapAssign tbl b pre
  | .internal _ l r, tbl, pre =>
    create_substitution_table r (create_substitution_table l tbl (pre ++ [false])) (pre ++ [true])

/-- The substitution table produced for a tree root, starting from the
default empty accumulator and empty bit string of the C++ call. -/
def substitution_table (root : HuffmanNode) : List (Byte × List Bool) :=
  create_substitution_table root [] []

/-- count_frequencies (main.cpp lines 201-209): frequencies[byte]++ over
the input, starting from an empty map. -/
def count_frequencies (data : List Byte) : List (Byte × Nat) :=
  data.foldl (fun m ch => mapAssign m ch (((m.lookup ch).getD 0) + 1)) []

/-! Decoding. -/

/-- The character str[index] compared against LEFT_CHAR, as a branch
selector: false means the bit '0' (go left).  index == size() yields the
null character through std::string::operator[], which differs from
LEFT_CHAR, so the decoder branches right there; larger indices are
undefined behaviour, likewise modelled as a right branch (the program
only reaches indices at most size()). -/
def strAt (bits : List Bool) (i : Int) : Bool :=
  if 0 ≤ i ∧ i < (bits.length : Int) then bits.getD i.toNat false else true

/-- decode (main.cpp lines 248-264) for the trees the program builds
(every node is a leaf or has both children): at a leaf emit its byte
without consuming input; at an internal node pre-increment the index,
read the bit there, and descend left on '0', right otherwise.  Returns
the final index together with the emitted byte. -/
def decode : HuffmanNode → Int → List Bool → Int × Byte
  | .leaf b _, index, _ => (index, b)
  | .internal _ l r, index, bits =>
    let index1 := index + 1
    if strAt bits index1 = false then decode l index1 bits else decode r index1 bits

/-- The decoding loop of decompress (main.cpp lines 424-428): while
index < size - 2 (as a signed comparison), run decode from the root.
For an internal root every call strictly increases the index, so fuel
size + 1 dominates the loop; a leaf root with a non-empty bit string
never advances, which in C++ is a non-terminating loop, modelled as
none when the fuel runs out with the loop condition still true. -/
def decompressLoop (root : HuffmanNode) (bits : List Bool) : Nat → Int → List Byte → Option (List Byte)
  | 0, index, decoded =>
    if index < (bits.length : Int) - 2 then none else some decoded
  | fuel + 1, index, decoded =>
    if index < (bits.length : Int) - 2 then
      let r := decode root index bits
      decompressLoop root bits fuel r.1 (decoded ++ [r.2])
    else some decoded

/-- decompress (main.cpp lines 419-431): rebuild the tree from the
frequency table, erase the last padding characters of the bit string
received by reference (std::string::erase throws when the erase
position overflows past the end, i.e. when padding exceeds the length:
modelled as none), then run the decode loop.  The returned pair is the
final state of the caller's bit string together with the decoded
bytes. -/
def decompress (bits : List Bool) (padding : Nat) (frequencies : List (Byte × Nat)) : Option (List Bool × List Byte) :=
  match build_huffman_tree frequencies with
  | none => none
  | some root =>
    if padding ≤ bits.length then
      let bits1 := bits.take (bits.length - padding)
      (decompressLoop root bits1 (bits1.length + 1) (-1) []).map (fun dec => (bits1, dec))
    else none

/-! Bit packing and the container layout. -/

/-- The value of std::bitset of eight '0'/'1' characters read
most-significant first (fewer than eight characters stand for the low
bits, as with the bitset substring constructor). -/
def bitsToByte (bits : List Bool) : Nat :=
  bits.foldl (fun acc b => 2 * acc + cond b 1 0) 0

/-- The packing loop of write_compressed_file (main.cpp lines 364-369):
group the padded bit string eight characters at a time into bytes,
most-significant bit first. -/
def packBits : List Bool → List Byte
  | [] => []
  | b0 :: b1 :: b2 :: b3 :: b4 :: b5 :: b6 :: b7 :: rest =>
    bitsToByte [b0, b1, b2, b3, b4, b5, b6, b7] :: packBits rest
  | rest => [bitsToByte rest]

/-- byte_to_bit_string (main.cpp lines 107-109): the eight bits of a
byte, most significant first (std::bitset to_string). -/
def byteToBits (b : Byte) : List Bool :=
  [b.testBit 7, b.testBit 6, b.testBit 5, b.testBit 4,
   b.testBit 3, b.testBit 2, b.testBit 1, b.testBit 0]

/-- bytes_to_bit_string (main.cpp lines 111-120). -/
def bytes_to_bit_string : List Byte → List Bool
  | [] => []
  | b :: rest => byteToBits b ++ bytes_to_bit_string rest

/-- An unsigned value laid out in n little-endian bytes, the memory
image ostream::write copies for an n-byte unsigned integral object on
the x86 machines the program targets. -/
def leBytes : Nat → Nat → List Byte
  | 0, _ => []
  | n + 1, v => v % 256 :: leBytes n (v / 256)

/-- The value of a little-endian byte list, as istream::read places it
into an unsigned integral object. -/
def leVal (l : List Byte) : Nat :=
  l.foldr (fun b acc => b + 256 * acc) 0

/-- The data_size computed by write_compressed_file (main.cpp line 342):
the length of the padded bit string divided by CHAR_BIT.  This is the
packed_size field of the container. -/
def packed_size (compressed_data : List Bool) (padding : Nat) : Nat :=
  (compressed_data ++ List.replicate padding false).length / 8

/-- The frequency-table section of the container: per map entry in
ascending key order, one byte for the symbol and four bytes for the
count (main.cpp lines 355-360). -/
def entryBytes : List (Byte × Nat) → List Byte
  | [] => []
  | p :: rest => (p.1 % 256 :: leBytes 4 p.2) ++ entryBytes rest

/-- write_compressed_file (main.cpp lines 329-372): append padding '0'
characters to the bit string, then emit the header, the frequency
table and the packed bit stream.  original_file_size and padding are
uint32_t (four bytes); data_size and frequencies_size are declared with
auto and therefore have type size_t, so their fields occupy szt bytes,
where szt is sizeof(size_t) of the producing machine: 8 on the common
LP64/LLP64 64-bit platforms, 4 on a 32-bit platform. -/
def write_compressed_file (szt : Nat) (original_file_size : Nat) (compressed_data : List Bool) (padding : Nat) (frequencies : List (Byte × Nat)) : List Byte :=
  let padded := compressed_data ++ List.replicate padding false
  leBytes 4 original_file_size
    ++ leBytes szt (packed_size compressed_data padding)
    ++ leBytes 4 padding
    ++ leBytes szt frequencies.length
    ++ entryBytes frequencies
    ++ packBits padded

/-- An n-byte read of a little-endian unsigned value from the front of
the remaining file, returning the value and the rest.  When fewer than
n bytes remain the C++ stream read fails and leaves the target object
indeterminate, which poisons everything after it: modelled as none. -/
def readLE (n : Nat) (bytes : List Byte) : Option (Nat × List Byte) :=
  if n ≤ bytes.length then some (leVal (bytes.take n), bytes.drop n) else none

/-- The frequency-table reading loop of read_compressed_file (main.cpp
lines 305-311): read count entries of one symbol byte and a four-byte
frequency, assigning frequencies[ch] = frequency. -/
def readEntries : Nat → List Byte → List (Byte × Nat) → Option (List (Byte × Nat) × List Byte)
  | 0, bytes, m => some (m, bytes)
  | n + 1, bytes, m =>
    match bytes with
    | [] => none
    | ch :: rest =>
      (readLE 4 rest).bind (fun p => readEntries n p.2 (mapAssign m ch p.1))

/-- read_compressed_file (main.cpp lines 284-319): read the four
four-byte header fields (original size, data size, padding, table
count), the frequency table, and then data_size bytes of packed data
into a zero-initialised vector, so a short data section is filled with
zero bytes rather than failing.  Returns original size, packed data,
frequency map and padding. -/
def read_compressed_file (file : List Byte) : Option (Nat × List Byte × List (Byte × Nat) × Nat) :=
  (readLE 4 file).bind fun r0 =>
  (readLE 4 r0.2).bind fun r1 =>
  (readLE 4 r1.2).bind fun r2 =>
  (readLE 4 r2.2).bind fun r3 =>
  (readEntries r3.1 r3.2 []).map fun r4 =>
  (r0.1, r4.2.take r1.1 ++ List.replicate (r1.1 - r4.2.length) 0, r4.1, r2.1)

/-! Compression. -/

/-- The result compress hands to write_compressed_file: the original
size cast to uint32_t, the unpadded encoded bit string, the padding
count and the frequency table. -/
structure CompressResult where
  original_size : Nat
  encoded : List Bool
  padding : Nat
  frequencies : List (Byte × Nat)
deriving DecidableEq, Repr

/-- The encoding loop of compress (main.cpp lines 392-394): concatenate
the substitution-table string of each input byte in input order.
operator[] on a missing key yields an empty string. -/
def encodeData (table : List (Byte × List Bool)) : List Byte → List Bool
  | [] => []
  | ch :: rest => (table.lookup ch).getD [] ++ encodeData table rest

/-- compress (main.cpp lines 376-400) up to the file write: count
frequencies, build the tree (none on empty input, where the tree
builder pops an empty heap), generate the substitution table, total the
encoded bit count in a uint32_t accumulator (wrapping modulo 2^32),
derive padding as CHAR_BIT minus the total modulo CHAR_BIT, and encode
the input. -/
def compress (data : List Byte) : Option CompressResult :=
  match build_huffman_tree (count_frequencies data) with
  | none => none
  | some root =>
    let frequencies := count_frequencies data
    let table := substitution_table root
    let encodedSize := table.foldl
      (fun acc p => (acc + ((frequencies.lookup p.1).getD 0) * p.2.length) % 4294967296) 0
    let padding := 8 - encodedSize % 8
    some ⟨data.length % 4294967296, encodeData table data, padding, frequencies⟩

/-- The container bytes produced by compress followed by
write_compressed_file, with szt the machine's sizeof(size_t). -/
def compress_to_bytes (szt : Nat) (data : List Byte) : Option (List Byte) :=
  (compress data).map fun r =>
    write_compressed_file szt r.original_size r.encoded r.padding r.frequencies

/-- decompress_to_file (main.cpp lines 433-443) without the raw file
primitives: parse the container, expand the packed bytes to a bit
string, and decompress. -/
def decompress_bytes (file : List Byte) : Option (List Byte) :=
  (read_compressed_file file).bind fun r =>
    (decompress (bytes_to_bit_string r.2.1) r.2.2.2 r.2.2.1).map (fun p => p.2)

/-- Compress to a container and decompress it again. -/
def roundtrip (szt : Nat) (data : List Byte) : Option (List Byte) :=
  (compress_to_bytes szt data).bind decompress_bytes

/-! A decidable form of the code-on-code relation used by the
prefix-freeness claim. -/

/-- isPre c1 c2 is true when the bit string c1 is an initial segment of
the bit string c2. -/
def isPre : List Bool → List Bool → Bool
  | [], _ => true
  | _ :: _, [] => false
  | a :: as, b :: bs => (a == b) && isPre as bs

/-- Modelled from the spec: the tree builder the tie-break sentence of
section 4.2 describes, with a stable priority ordering over (frequency,
insertion order): the extracted node is always the earliest-inserted
node of minimal frequency.  Used only to compare the claimed tie-break
policy against the code's priority_queue. -/
def stableExtract : List HuffmanNode → HuffmanNode × List HuffmanNode
  | [] => (default, [])
  | [x] => (x, [])
  | x :: y :: rest =>
    let r := stableExtract (y :: rest)
    if r.1.freq < x.freq then (r.1, x :: r.2) else (x, y :: rest)

/-- Modelled from the spec: the merge loop over the stable queue. -/
def stableLoop : Nat → List HuffmanNode → List HuffmanNode
  | 0, v => v
  | fuel + 1, v =>
    if 1 < v.length then
      let l := (stableExtract v).1
      let v1 := (stableExtract v).2
      let r := (stableExtract v1).1
      let v2 := (stableExtract v1).2
      stableLoop fuel (v2 ++ [HuffmanNode.internal (l.freq + r.freq) l r])
    else v

/-- Modelled from the spec: build_huffman_tree with the claimed stable
(frequency, insertion order) extraction, leaves inserted in ascending
byte order as serialized. -/
def build_huffman_tree_stable (frequencies : List (Byte × Nat)) : Option HuffmanNode :=
  let v := frequencies.map (fun p => HuffmanNode.leaf p.1 p.2)
  (stableLoop v.length v).head?

/-! Length and success lemmas for the heap operations. -/

theorem length_siftUpAux (fuel : Nat) (v : List HuffmanNode) (hole : Nat) (value : HuffmanNode) :
    (siftUpAux fuel v hole value).length = v.length := by
  induction fuel generalizing v hole with
  | zero => cases hole <;> simp [siftUpAux]
  | succ n ih =>
    cases hole with
    | zero => simp [siftUpAux]
    | succ h =>
      simp only [siftUpAux]
      split
      · rw [ih]; simp
      · simp

theorem length_adjustLoop (fuel : Nat) (v : List HuffmanNode) (hole sc : Nat) (value : HuffmanNode) :
    (adjustLoop fuel v hole sc value).length = v.length := by
  induction fuel generalizing v hole sc with
  | zero => simp [adjustLoop, length_siftUpAux]
  | succ n ih =>
    simp only [adjustLoop]
    split
    · rw [ih]; simp
    · split <;> simp [length_siftUpAux]

theorem length_pushHeap (v : List HuffmanNode) (x : HuffmanNode) :
    (pushHeap v x).length = v.length + 1 := by
  simp [pushHeap, length_siftUpAux]

theorem length_popHeap (v : List HuffmanNode) (h : v ≠ []) :
    ((popHeap v).2).length = v.length - 1 := by
  match v with
  | [x] => simp [popHeap]
  | x :: y :: rest =>
    simp only [popHeap, length_adjustLoop]
    simp [List.length_take]

theorem buildLoop_ne_nil (fuel : Nat) (v : List HuffmanNode) (h : v ≠ []) :
    buildLoop fuel v ≠ [] := by
  induction fuel generalizing v with
  | zero => simpa [buildLoop]
  | succ n ih =>
    simp only [buildLoop]
    split
    · exact ih _ (List.ne_nil_of_length_pos (by rw [length_pushHeap]; omega))
    · exact h

theorem length_initHeap (freqs : List (Byte × Nat)) (acc : List HuffmanNode) :
    (freqs.foldl (fun acc p => pushHeap acc (HuffmanNode.leaf p.1 p.2)) acc).length
      = acc.length + freqs.length := by
  induction freqs generalizing acc with
  | nil => simp
  | cons p rest ih =>
    simp only [List.foldl_cons]
    rw [ih, length_pushHeap, List.length_cons]
    omega

theorem build_some (freqs : List (Byte × Nat)) (h : freqs ≠ []) :
    ∃ root, build_huffman_tree freqs = some root := by
  have h1 : (freqs.foldl (fun acc p => pushHeap acc (HuffmanNode.leaf p.1 p.2)) []).length
      = freqs.length := by simpa using length_initHeap freqs []
  have h2 : (freqs.foldl (fun acc p => pushHeap acc (HuffmanNode.leaf p.1 p.2)) []) ≠ [] := by
    apply List.ne_nil_of_length_pos
    rw [h1]
    exact List.length_pos.mpr h
  have h3 := buildLoop_ne_nil (freqs.foldl (fun acc p => pushHeap acc (HuffmanNode.leaf p.1 p.2)) []).length _ h2
  obtain ⟨a, l, hal⟩ := List.exists_cons_of_ne_nil h3
  exact ⟨a, by simp only [build_huffman_tree, hal, List.head?_cons]⟩

theorem mapAssign_ne_nil {α : Type} (m : List (Byte × α)) (b : Byte) (x : α) :
    mapAssign m b x ≠ [] := by
  cases m with
  | nil => simp [mapAssign]
  | cons p rest =>
    simp only [mapAssign]
    split
    · simp
    · split <;> simp

theorem count_fold_ne_nil (data : List Byte) (m : List (Byte × Nat)) (h : m ≠ []) :
    data.foldl (fun m ch => mapAssign m ch (((m.lookup ch).getD 0) + 1)) m ≠ [] := by
  induction data generalizing m with
  | nil => simpa
  | cons ch rest ih => exact ih _ (mapAssign_ne_nil _ _ _)

theorem count_frequencies_ne_nil (data : List Byte) (h : data ≠ []) :
    count_frequencies data ≠ [] := by
  match data with
  | ch :: rest =>
    simp only [count_frequencies, List.foldl_cons]
    exact count_fold_ne_nil rest _ (mapAssign_ne_nil _ _ _)

/-! Concrete evaluations of the pipeline. -/

/-- C1: the round-trip claim fails on the code.  Decompressing the
container produced for the two-byte input 65 66 ("AB") yields only 65:
the decode loop of decompress stops while one meaningful bit (the
one-bit codeword of the final symbol) is still unread, because its
condition index < size - 2 exits as soon as fewer than two unread bits
remain.  An input with a single distinct byte value loses everything:
its codewords are empty strings, and decompressing its container yields
the empty sequence. -/
theorem roundtrip_drops_final_symbol :
    roundtrip 4 [65, 66] = some [65] ∧ roundtrip 4 [65, 66] ≠ some [65, 66] ∧
    roundtrip 4 [65] = some [] := by
  refine ⟨by decide, by decide, by decide⟩

/-- C2: the 4-byte-field claim fails on an LP64 machine (sizeof(size_t)
equals 8).  The container written for input 65 66 is 35 bytes: the
packed_size and table_count fields, declared with auto from size_t
expressions, occupy eight bytes each (visible below as the four zero
bytes following each of them), while original_size and padding occupy
four.  The program's own reader parses all four header fields as
four-byte uint32_t values, misparses this container and fails.  With a
4-byte size_t (a 32-bit build) the writer emits the claimed layout. -/
theorem size_t_fields_break_container :
    compress_to_bytes 8 [65, 66] =
      some [2, 0, 0, 0, 1, 0, 0, 0, 0, 0, 0, 0, 6, 0, 0, 0, 2, 0, 0, 0, 0, 0, 0, 0,
            65, 1, 0, 0, 0, 66, 1, 0, 0, 0, 64] ∧
    decompress_bytes [2, 0, 0, 0, 1, 0, 0, 0, 0, 0, 0, 0, 6, 0, 0, 0, 2, 0, 0, 0, 0, 0, 0, 0,
            65, 1, 0, 0, 0, 66, 1, 0, 0, 0, 64] = none ∧
    compress_to_bytes 4 [65, 66] =
      some [2, 0, 0, 0, 1, 0, 0, 0, 6, 0, 0, 0, 2, 0, 0, 0,
            65, 1, 0, 0, 0, 66, 1, 0, 0, 0, 64] := by
  refine ⟨by decide, by decide, by decide⟩

/-- C3: for the input "AAAABBBB" (bytes 65 and 66, four times each) the
generated table does have exactly 2 entries with codes of length 1, but
the input does not round-trip: the decoder stops one bit early and
returns only seven of the eight bytes, so it does not consume all
meaningful bits. -/
theorem two_symbol_input_loses_last_byte :
    build_huffman_tree (count_frequencies [65, 65, 65, 65, 66, 66, 66, 66]) =
      some (HuffmanNode.internal 8 (HuffmanNode.leaf 65 4) (HuffmanNode.leaf 66 4)) ∧
    substitution_table (HuffmanNode.internal 8 (HuffmanNode.leaf 65 4) (HuffmanNode.leaf 66 4)) =
      [(65, [false]), (66, [true])] ∧
    roundtrip 4 [65, 65, 65, 65, 66, 66, 66, 66] = some [65, 65, 65, 65, 66, 66, 66] := by
  refine ⟨by decide, by decide, by decide⟩

/-- C4: compressing the empty byte sequence produces no container, but
not through a typed EmptyInput error: the program has no error channel
at all, and build_huffman_tree reaches top() on an empty priority queue,
which is undefined behaviour in C++ (modelled here as none). -/
theorem empty_input_pops_empty_heap :
    compress ([] : List Byte) = none ∧
    compress_to_bytes 4 [] = none ∧ compress_to_bytes 8 [] = none := by
  refine ⟨by decide, by decide, by decide⟩

/-! Parsing failure on short containers. -/

theorem readLE_short (n : Nat) (bytes : List Byte) (h : bytes.length < n) :
    readLE n bytes = none := by
  simp [readLE]
  omega

theorem read_compressed_file_short (file : List Byte) (h : file.length < 16) :
    read_compressed_file file = none := by
  rcases Nat.lt_or_ge file.length 4 with h4 | h4
  · simp only [read_compressed_file, readLE_short 4 file h4, Option.none_bind]
  · have e4 : readLE 4 file = some (leVal (file.take 4), file.drop 4) := by
      unfold readLE
      rw [if_pos h4]
    rcases Nat.lt_or_ge (file.drop 4).length 4 with h8 | h8
    · simp only [read_compressed_file, e4, Option.some_bind,
        readLE_short 4 _ h8, Option.none_bind]
    · have e8 : readLE 4 (file.drop 4) =
          some (leVal ((file.drop 4).take 4), (file.drop 4).drop 4) := by
        unfold readLE
        rw [if_pos h8]
      rcases Nat.lt_or_ge ((file.drop 4).drop 4).length 4 with h12 | h12
      · simp only [read_compressed_file, e4, e8, Option.some_bind,
          readLE_short 4 _ h12, Option.none_bind]
      · have e12 : readLE 4 ((file.drop 4).drop 4) =
            some (leVal (((file.drop 4).drop 4).take 4), ((file.drop 4).drop 4).drop 4) := by
          unfold readLE
          rw [if_pos h12]
        have h16 : (((file.drop 4).drop 4).drop 4).length < 4 := by
          simp only [List.length_drop]
          omega
        simp only [read_compressed_file, e4, e8, e12, Option.some_bind,
          readLE_short 4 _ h16, Option.none_bind]

/-- C5: a container shorter than the 16-byte header makes decompression
fail, but not through a typed CorruptContainer error: the program never
checks its stream reads, so in C++ the failed reads leave the header
variables uninitialized (indeterminate values, undefined behaviour),
modelled here as a failing parse. -/
theorem short_container_read_fails (file : List Byte) (h : file.length < 16) :
    decompress_bytes file = none ∧ read_compressed_file file = none := by
  have hr := read_compressed_file_short file h
  exact ⟨by simp [decompress_bytes, hr], hr⟩

/-- C5 witness: a 15-byte container is rejected. -/
theorem short_container_read_fails_witness :
    (List.replicate 15 (0 : Byte)).length < 16 ∧
    decompress_bytes (List.replicate 15 (0 : Byte)) = none := by
  refine ⟨by decide, (short_container_read_fails (List.replicate 15 (0 : Byte)) (by decide)).1⟩

/-! The frame effect of decompress on its bit-string argument. -/

/-- C10: whenever decompress returns, the final state of the bit string
passed by reference to it (the first component of the result) is the
original string with its last padding characters erased. -/
theorem decompress_erases_padding (bits : List Bool) (padding : Nat)
    (frequencies : List (Byte × Nat)) (p : List Bool × List Byte)
    (h : decompress bits padding frequencies = some p) :
    p.1 = bits.take (bits.length - padding) := by
  unfold decompress at h
  split at h
  · simp at h
  · split at h
    · rcases Option.map_eq_some'.mp h with ⟨dec, _, hdec⟩
      rw [← hdec]
    · simp at h

/-- C10 witness: decompressing the packed byte 64 with padding 6 under
the frequency table of the input "AB" leaves the caller's bit string
holding the first two of its eight characters. -/
theorem decompress_erases_padding_witness :
    (([false, true], [65]) : List Bool × List Byte).1 =
      ([false, true, false, false, false, false, false, false] : List Bool).take
        (([false, true, false, false, false, false, false, false] : List Bool).length - 6) :=
  decompress_erases_padding
    [false, true, false, false, false, false, false, false] 6 [(65, 1), (66, 1)]
    ([false, true], [65]) (by decide)

/-! Lookup and ordering lemmas for the association-list map. -/

theorem mapAssign_lookup {α : Type} (m : List (Byte × α)) (k : Byte) (x : α) (b : Byte) :
    (mapAssign m k x).lookup b = if b = k then some x else m.lookup b := by
  induction m with
  | nil =>
    by_cases hb : b = k
    · subst hb
      simp [mapAssign, List.lookup]
    · have e : (b == k) = false := beq_eq_false_iff_ne.mpr hb
      simp [mapAssign, List.lookup, e, hb]
  | cons p rest ih =>
    obtain ⟨h, v⟩ := p
    simp only [mapAssign]
    by_cases h1 : k < h
    · rw [if_pos h1]
      by_cases hb : b = k
      · subst hb
        simp [List.lookup]
      · have e : (b == k) = false := beq_eq_false_iff_ne.mpr hb
        simp [List.lookup, e, hb]
    · rw [if_neg h1]
      by_cases h2 : k = h
      · rw [if_pos h2]
        subst h2
        by_cases hb : b = k
        · subst hb
          simp [List.lookup]
        · have e : (b == k) = false := beq_eq_false_iff_ne.mpr hb
          simp [List.lookup, e, hb]
      · rw [if_neg h2]
        by_cases hb : b = h
        · have hbk : b ≠ k := by
            subst hb
            exact fun e => h2 e.symm
          have e1 : (b == h) = true := beq_iff_eq.mpr hb
          have e2 : (b == k) = false := beq_eq_false_iff_ne.mpr hbk
          simp [List.lookup, e1, e2, hbk]
        · have e1 : (b == h) = false := beq_eq_false_iff_ne.mpr hb
          simp [List.lookup, e1, ih]

theorem mapAssign_mem {α : Type} (m : List (Byte × α)) (k : Byte) (x : α) :
    ∀ e ∈ mapAssign m k x, e ∈ m ∨ e = (k, x) := by
  induction m with
  | nil => simp [mapAssign]
  | cons p rest ih =>
    intro e he
    simp only [mapAssign] at he
    split at he
    · rcases List.mem_cons.mp he with h | h
      · exact Or.inr h
      · exact Or.inl h
    · split at he
      · rcases List.mem_cons.mp he with h | h
        · exact Or.inr h
        · exact Or.inl (List.mem_cons_of_mem _ h)
      · rcases List.mem_cons.mp he with h | h
        · exact Or.inl (h ▸ List.mem_cons_self _ _)
        · rcases ih e h with h' | h'
          · exact Or.inl (List.mem_cons_of_mem _ h')
          · exact Or.inr h'

theorem mapAssign_pairwise {α : Type} (m : List (Byte × α)) (k : Byte) (x : α)
    (h : List.Pairwise (fun p q : Byte × α => p.1 < q.1) m) :
    List.Pairwise (fun p q : Byte × α => p.1 < q.1) (mapAssign m k x) := by
  induction m with
  | nil => simp [mapAssign]
  | cons p rest ih =>
    obtain ⟨hp, hrest⟩ := List.pairwise_cons.mp h
    simp only [mapAssign]
    by_cases h1 : k < p.1
    · rw [if_pos h1]
      refine List.pairwise_cons.mpr ⟨?_, h⟩
      intro q hq
      rcases List.mem_cons.mp hq with h' | h'
      · rw [h']
        exact h1
      · exact lt_trans h1 (hp q h')
    · rw [if_neg h1]
      by_cases h2 : k = p.1
      · rw [if_pos h2]
        refine List.pairwise_cons.mpr ⟨?_, hrest⟩
        intro q hq
        show k < q.1
        rw [h2]
        exact hp q hq
      · rw [if_neg h2]
        refine List.pairwise_cons.mpr ⟨?_, ih hrest⟩
        intro q hq
        rcases mapAssign_mem rest k x q hq with h' | h'
        · exact hp q h'
        · rw [h']
          show p.1 < k
          exact lt_of_le_of_ne (Nat.le_of_not_lt h1) (fun e => h2 e.symm)

theorem count_fold_pairwise (data : List Byte) (m : List (Byte × Nat))
    (h : List.Pairwise (fun p q : Byte × Nat => p.1 < q.1) m) :
    List.Pairwise (fun p q : Byte × Nat => p.1 < q.1)
      (data.foldl (fun m ch => mapAssign m ch (((m.lookup ch).getD 0) + 1)) m) := by
  induction data generalizing m with
  | nil => simpa
  | cons ch rest ih => exact ih _ (mapAssign_pairwise _ _ _ h)

theorem count_frequencies_pairwise (data : List Byte) :
    List.Pairwise (fun p q : Byte × Nat => p.1 < q.1) (count_frequencies data) :=
  count_fold_pairwise data [] List.Pairwise.nil

theorem count_fold_lookup (data : List Byte) (m : List (Byte × Nat)) (b : Byte) :
    (((data.foldl (fun m ch => mapAssign m ch (((m.lookup ch).getD 0) + 1)) m).lookup b).getD 0)
      = ((m.lookup b).getD 0) + data.count b := by
  induction data generalizing m with
  | nil => simp
  | cons ch rest ih =>
    simp only [List.foldl_cons]
    rw [ih, mapAssign_lookup]
    by_cases hb : b = ch
    · subst hb
      simp [List.count_cons]
      omega
    · simp [List.count_cons, hb]

theorem count_frequencies_lookup (data : List Byte) (b : Byte) :
    ((count_frequencies data).lookup b).getD 0 = data.count b := by
  simpa [count_frequencies] using count_fold_lookup data [] b

theorem lookup_of_mem_pairwise {α : Type} (m : List (Byte × α))
    (h : List.Pairwise (fun p q : Byte × α => p.1 < q.1) m) (b : Byte) (c : α)
    (hm : (b, c) ∈ m) : m.lookup b = some c := by
  induction m with
  | nil => cases hm
  | cons p rest ih =>
    obtain ⟨hp, hrest⟩ := List.pairwise_cons.mp h
    rcases List.mem_cons.mp hm with h' | h'
    · rw [← h']
      simp [List.lookup]
    · have hlt : p.1 < b := hp (b, c) h'
      have hb : (b == p.1) = false := beq_eq_false_iff_ne.mpr (Nat.ne_of_lt hlt).symm
      simp only [List.lookup, hb]
      exact ih hrest h'

theorem lookup_eq_none_of_forall {α : Type} (m : List (Byte × α)) (b : Byte)
    (h : ∀ p ∈ m, b ≠ p.1) : m.lookup b = none := by
  induction m with
  | nil => simp [List.lookup]
  | cons p rest ih =>
    have hb : (b == p.1) = false :=
      beq_eq_false_iff_ne.mpr (h p (List.mem_cons_self _ _))
    simp only [List.lookup, hb]
    exact ih fun q hq => h q (List.mem_cons_of_mem _ hq)

theorem count_fold_mem (data : List Byte) (m : List (Byte × Nat)) (e : Byte × Nat)
    (he : e ∈ data.foldl (fun m ch => mapAssign m ch (((m.lookup ch).getD 0) + 1)) m) :
    e ∈ m ∨ e.1 ∈ data := by
  induction data generalizing m with
  | nil => exact Or.inl he
  | cons ch rest ih =>
    simp only [List.foldl_cons] at he
    rcases ih _ he with h' | h'
    · rcases mapAssign_mem m ch _ e h' with h'' | h''
      · exact Or.inl h''
      · exact Or.inr (by rw [h'']; exact List.mem_cons_self _ _)
    · exact Or.inr (List.mem_cons_of_mem _ h')

theorem mem_count_frequencies (data : List Byte) (e : Byte × Nat)
    (he : e ∈ count_frequencies data) : e.1 ∈ data ∧ e.2 = data.count e.1 := by
  have h1 : e.1 ∈ data := by
    rcases count_fold_mem data [] e he with h | h
    · cases h
    · exact h
  have h2 := lookup_of_mem_pairwise _ (count_frequencies_pairwise data) e.1 e.2 he
  have h3 := count_frequencies_lookup data e.1
  rw [h2] at h3
  exact ⟨h1, by simpa using h3⟩

/-! Sum lemmas for the size-accounting claim. -/

theorem encodeData_length (tbl : List (Byte × List Bool)) (data : List Byte) :
    (encodeData tbl data).length = (data.map fun x => ((tbl.lookup x).getD []).length).sum := by
  induction data with
  | nil => simp [encodeData]
  | cons ch rest ih => simp [encodeData, ih]

theorem sum_ite_count (data : List Byte) (b : Byte) (L : Nat) (g : Byte → Nat) :
    (data.map fun x => if x = b then L else g x).sum
      = data.count b * L + (data.map fun x => if x = b then 0 else g x).sum := by
  induction data with
  | nil => simp
  | cons x rest ih =>
    by_cases hx : x = b
    · subst hx
      simp only [List.map_cons, List.sum_cons, if_pos rfl, ih]
      simp [List.count_cons]
      ring
    · simp only [List.map_cons, List.sum_cons, if_neg hx, ih]
      have hbx : b ≠ x := fun e => hx e.symm
      simp [List.count_cons, hbx, hx]
      ring

theorem sum_lookup_exchange (tbl : List (Byte × List Bool))
    (hk : List.Pairwise (fun p q : Byte × List Bool => p.1 < q.1) tbl) (data : List Byte) :
    (data.map fun x => ((tbl.lookup x).getD []).length).sum
      = (tbl.map fun p => data.count p.1 * p.2.length).sum := by
  induction tbl with
  | nil =>
    simp only [List.lookup_nil, Option.getD_none, List.length_nil, List.map_nil, List.sum_nil]
    induction data with
    | nil => simp
    | cons x rest ih => simp
  | cons p rest ih =>
    obtain ⟨hp, hrest⟩ := List.pairwise_cons.mp hk
    have hstep : (fun x => ((List.lookup x (p :: rest)).getD []).length)
        = fun x => if x = p.1 then p.2.length else ((rest.lookup x).getD []).length := by
      funext x
      by_cases hx : x = p.1
      · subst hx
        simp [List.lookup]
      · have e : (x == p.1) = false := beq_eq_false_iff_ne.mpr hx
        simp [List.lookup, e, hx]
    rw [hstep, sum_ite_count]
    have hz : ((rest.lookup p.1).getD []).length = 0 := by
      rw [lookup_eq_none_of_forall rest p.1 (fun q hq => Nat.ne_of_lt (hp q hq))]
      simp
    have hfun : (fun x => if x = p.1 then 0 else ((rest.lookup x).getD []).length)
        = fun x => ((rest.lookup x).getD []).length := by
      funext x
      by_cases hx : x = p.1
      · subst hx
        simp [hz]
      · simp [hx]
    rw [hfun, ih hrest]
    simp

theorem esfold_mod (l : List (Byte × List Bool)) (f : (Byte × List Bool) → Nat) (acc : Nat) :
    (l.foldl (fun acc p => (acc + f p) % 4294967296) acc) % 8 = (acc + (l.map f).sum) % 8 := by
  induction l generalizing acc with
  | nil => simp
  | cons p rest ih =>
    simp only [List.foldl_cons, List.map_cons, List.sum_cons]
    rw [ih]
    have h8 : (8 : Nat) ∣ 4294967296 := by norm_num
    rw [Nat.add_mod ((acc + f p) % 4294967296), Nat.mod_mod_of_dvd _ h8, ← Nat.add_mod,
      Nat.add_assoc]

theorem cst_pairwise (t : HuffmanNode) :
    ∀ (tbl : List (Byte × List Bool)) (pre : List Bool),
    List.Pairwise (fun p q : Byte × List Bool => p.1 < q.1) tbl →
    List.Pairwise (fun p q : Byte × List Bool => p.1 < q.1)
      (create_substitution_table t tbl pre) := by
  induction t with
  | leaf b f => exact fun tbl pre h => mapAssign_pairwise tbl b pre h
  | internal f l r ihl ihr =>
    exact fun tbl pre h => ihr _ _ (ihl _ _ h)

/-- C6: for every non-empty input, compress succeeds, its padding is
strictly positive and at most 8 (8 exactly when the encoded stream is
already byte-aligned, by the formula 8 - size mod 8), the padded bit
string is a whole number of bytes, and the packed_size field of the
container accounts exactly for the sum over the input bytes of their
code lengths plus the padding. -/
theorem compress_padding_and_size_accounting (data : List Byte) (hne : data ≠ []) :
    ∃ root r, build_huffman_tree (count_frequencies data) = some root ∧
      compress data = some r ∧
      0 < r.padding ∧ r.padding ≤ 8 ∧
      r.encoded = encodeData (substitution_table root) data ∧
      (r.encoded.length + r.padding) % 8 = 0 ∧
      packed_size r.encoded r.padding * 8 =
        (data.map fun x => (((substitution_table root).lookup x).getD []).length).sum
          + r.padding := by
  obtain ⟨root, hroot⟩ := build_some _ (count_frequencies_ne_nil data hne)
  have hcomp : compress data = some
      ⟨data.length % 4294967296,
       encodeData (substitution_table root) data,
       8 - ((substitution_table root).foldl
         (fun acc p =>
           (acc + (((count_frequencies data).lookup p.1).getD 0) * p.2.length) % 4294967296) 0) % 8,
       count_frequencies data⟩ := by
    simp only [compress, hroot]
  set S := (data.map fun x => (((substitution_table root).lookup x).getD []).length).sum with hS
  set ES := ((substitution_table root).foldl
    (fun acc p =>
      (acc + (((count_frequencies data).lookup p.1).getD 0) * p.2.length) % 4294967296) 0) with hES
  have htblp : List.Pairwise (fun p q : Byte × List Bool => p.1 < q.1)
      (substitution_table root) :=
    cst_pairwise root [] [] List.Pairwise.nil
  have hmod : ES % 8 = S % 8 := by
    rw [hES, esfold_mod]
    have hcong : ((substitution_table root).map
          (fun p => (((count_frequencies data).lookup p.1).getD 0) * p.2.length))
        = (substitution_table root).map (fun p => data.count p.1 * p.2.length) := by
      apply List.map_congr_left
      intro p _
      rw [count_frequencies_lookup]
    rw [Nat.zero_add, hcong, ← sum_lookup_exchange _ htblp data, ← hS]
  have hlen : (encodeData (substitution_table root) data).length = S := by
    rw [hS, encodeData_length]
  have hm8 : ES % 8 < 8 := Nat.mod_lt _ (by norm_num)
  refine ⟨root, _, hroot, hcomp, ?_, ?_, rfl, ?_, ?_⟩
  · simp only
    omega
  · simp only
    omega
  · simp only [hlen]
    omega
  · simp only [packed_size, List.length_append, List.length_replicate, hlen]
    omega

/-- C6 witness: the accounting at the concrete input 65 66. -/
theorem compress_padding_and_size_accounting_witness :
    ([65, 66] : List Byte) ≠ [] ∧
    (∃ root r, build_huffman_tree (count_frequencies [65, 66]) = some root ∧
      compress [65, 66] = some r ∧
      0 < r.padding ∧ r.padding ≤ 8 ∧
      r.encoded = encodeData (substitution_table root) [65, 66] ∧
      (r.encoded.length + r.padding) % 8 = 0 ∧
      packed_size r.encoded r.padding * 8 =
        (([65, 66] : List Byte).map
          fun x => (((substitution_table root).lookup x).getD []).length).sum
          + r.padding) :=
  ⟨by decide, compress_padding_and_size_accounting [65, 66] (by decide)⟩

/-! The depth-first list of leaf codes behind the substitution table. -/

/-- The (leaf byte, root-to-leaf path) pairs recorded by
create_substitution_table, in depth-first visiting order. -/
def cstList : HuffmanNode → List Bool → List (Byte × List Bool)
  | .leaf b _, pre => [(b, pre)]
  | .internal _ l r, pre => cstList l (pre ++ [false]) ++ cstList r (pre ++ [true])

theorem cst_eq_fold (t : HuffmanNode) :
    ∀ (tbl : List (Byte × List Bool)) (pre : List Bool),
    create_substitution_table t tbl pre
      = (cstList t pre).foldl (fun m p => mapAssign m p.1 p.2) tbl := by
  induction t with
  | leaf b f => intro tbl pre; rfl
  | internal f l r ihl ihr =>
    intro tbl pre
    simp only [create_substitution_table, cstList, List.foldl_append, ihl, ihr]

theorem fold_mapAssign_mem (l : List (Byte × List Bool)) :
    ∀ (tbl : List (Byte × List Bool)) (e : Byte × List Bool),
    e ∈ l.foldl (fun m p => mapAssign m p.1 p.2) tbl → e ∈ tbl ∨ e ∈ l := by
  induction l with
  | nil => exact fun tbl e he => Or.inl he
  | cons p rest ih =>
    intro tbl e he
    simp only [List.foldl_cons] at he
    rcases ih _ e he with h | h
    · rcases mapAssign_mem tbl p.1 p.2 e h with h' | h'
      · exact Or.inl h'
      · refine Or.inr ?_
        rw [h']
        simp
    · exact Or.inr (List.mem_cons_of_mem _ h)

theorem mem_substitution_table (root : HuffmanNode) (e : Byte × List Bool)
    (he : e ∈ substitution_table root) : e ∈ cstList root [] := by
  rw [substitution_table, cst_eq_fold] at he
  rcases fold_mapAssign_mem _ _ _ he with h | h
  · cases h
  · exact h

theorem cstList_shape (t : HuffmanNode) :
    ∀ (pre : List Bool) (e : Byte × List Bool), e ∈ cstList t pre → ∃ s, e.2 = pre ++ s := by
  induction t with
  | leaf b f =>
    intro pre e he
    simp only [cstList, List.mem_singleton] at he
    exact ⟨[], by rw [he]; simp⟩
  | internal f l r ihl ihr =>
    intro pre e he
    simp only [cstList, List.mem_append] at he
    rcases he with h | h
    · obtain ⟨s, hs⟩ := ihl _ e h
      exact ⟨false :: s, by rw [hs]; simp⟩
    · obtain ⟨s, hs⟩ := ihr _ e h
      exact ⟨true :: s, by rw [hs]; simp⟩

theorem isPre_append (p : List Bool) : ∀ x y, isPre (p ++ x) (p ++ y) = isPre x y := by
  induction p with
  | nil => intro x y; rfl
  | cons a rest ih => intro x y; simp [isPre, ih]

theorem isPre_cross (pre : List Bool) (x y : List Bool) (b1 b2 : Bool) (hne : b1 ≠ b2) :
    isPre (pre ++ b1 :: x) (pre ++ b2 :: y) = false := by
  rw [isPre_append]
  have e : (b1 == b2) = false := by
    cases b1 <;> cases b2 <;> simp_all
  simp [isPre, e]

theorem cstList_nonPre (t : HuffmanNode) :
    ∀ (pre : List Bool) (e1 e2 : Byte × List Bool), e1 ∈ cstList t pre → e2 ∈ cstList t pre →
    e1.1 ≠ e2.1 → isPre e1.2 e2.2 = false := by
  induction t with
  | leaf b f =>
    intro pre e1 e2 h1 h2 hne
    simp only [cstList, List.mem_singleton] at h1 h2
    rw [h1, h2] at hne
    exact absurd rfl hne
  | internal f l r ihl ihr =>
    intro pre e1 e2 h1 h2 hne
    simp only [cstList, List.mem_append] at h1 h2
    rcases h1 with h1 | h1 <;> rcases h2 with h2 | h2
    · exact ihl _ e1 e2 h1 h2 hne
    · obtain ⟨s1, hs1⟩ := cstList_shape l _ e1 h1
      obtain ⟨s2, hs2⟩ := cstList_shape r _ e2 h2
      have e1eq : e1.2 = pre ++ false :: s1 := by rw [hs1]; simp
      have e2eq : e2.2 = pre ++ true :: s2 := by rw [hs2]; simp
      rw [e1eq, e2eq]
      exact isPre_cross pre s1 s2 false true (by simp)
    · obtain ⟨s1, hs1⟩ := cstList_shape r _ e1 h1
      obtain ⟨s2, hs2⟩ := cstList_shape l _ e2 h2
      have e1eq : e1.2 = pre ++ true :: s1 := by rw [hs1]; simp
      have e2eq : e2.2 = pre ++ false :: s2 := by rw [hs2]; simp
      rw [e1eq, e2eq]
      exact isPre_cross pre s1 s2 true false (by simp)
    · exact ihr _ e1 e2 h1 h2 hne

/-- C8: no code of a generated substitution table is an initial segment
of the code of a different byte; the codes are recorded only at the
leaves of the tree, and codes recorded under the two children of any
internal node already differ at that node's branching bit. -/
theorem generated_codes_nonnested (frequencies : List (Byte × Nat)) (root : HuffmanNode)
    (_hb : build_huffman_tree frequencies = some root) (e1 e2 : Byte × List Bool)
    (h1 : e1 ∈ substitution_table root) (h2 : e2 ∈ substitution_table root)
    (hne : e1.1 ≠ e2.1) : isPre e1.2 e2.2 = false :=
  cstList_nonPre root [] e1 e2 (mem_substitution_table root e1 h1)
    (mem_substitution_table root e2 h2) hne

/-- C8 witness: the two codes of the table for one 65 and one 66. -/
theorem generated_codes_nonnested_witness :
    isPre ([false] : List Bool) [true] = false ∧ isPre ([true] : List Bool) [false] = false :=
  ⟨generated_codes_nonnested [(65, 1), (66, 1)]
      (HuffmanNode.internal 2 (HuffmanNode.leaf 65 1) (HuffmanNode.leaf 66 1)) (by decide)
      (65, [false]) (66, [true]) (by decide) (by decide) (by decide),
   generated_codes_nonnested [(65, 1), (66, 1)]
      (HuffmanNode.internal 2 (HuffmanNode.leaf 65 1) (HuffmanNode.leaf 66 1)) (by decide)
      (66, [true]) (65, [false]) (by decide) (by decide) (by decide)⟩

/-! The root is an internal node whenever the alphabet has at least two
symbols. -/

theorem pushHeap_nil (x : HuffmanNode) : pushHeap [] x = [x] := rfl

theorem buildLoop_single (fuel : Nat) (x : HuffmanNode) : buildLoop fuel [x] = [x] := by
  cases fuel <;> simp [buildLoop]

theorem buildLoop_internal (fuel : Nat) :
    ∀ (v : List HuffmanNode), 2 ≤ v.length → v.length ≤ fuel + 1 →
    ∃ f l r, buildLoop fuel v = [HuffmanNode.internal f l r] := by
  induction fuel with
  | zero => intro v h2 h1; omega
  | succ n ih =>
    intro v h2 hle
    have hgt : 1 < v.length := by omega
    have hv : v ≠ [] := List.ne_nil_of_length_pos (by omega)
    have l1 : (popHeap v).2.length = v.length - 1 := length_popHeap v hv
    have hv1 : (popHeap v).2 ≠ [] := List.ne_nil_of_length_pos (by omega)
    have l2 : ((popHeap (popHeap v).2).2).length = v.length - 2 := by
      rw [length_popHeap _ hv1, l1]
      omega
    simp only [buildLoop, if_pos hgt]
    by_cases hc : v.length = 2
    · have hz : (popHeap (popHeap v).2).2 = [] := List.length_eq_zero.mp (by omega)
      rw [hz, pushHeap_nil]
      exact ⟨_, _, _, buildLoop_single n _⟩
    · apply ih
      · rw [length_pushHeap, l2]
        omega
      · rw [length_pushHeap, l2]
        omega

theorem build_internal (freqs : List (Byte × Nat)) (root : HuffmanNode)
    (h2 : 2 ≤ freqs.length) (hb : build_huffman_tree freqs = some root) :
    ∃ f l r, root = HuffmanNode.internal f l r := by
  have hlen : (freqs.foldl (fun acc p => pushHeap acc (HuffmanNode.leaf p.1 p.2)) []).length
      = freqs.length := by simpa using length_initHeap freqs []
  obtain ⟨f, l, r, he⟩ := buildLoop_internal
    (freqs.foldl (fun acc p => pushHeap acc (HuffmanNode.leaf p.1 p.2)) []).length
    (freqs.foldl (fun acc p => pushHeap acc (HuffmanNode.leaf p.1 p.2)) [])
    (by omega) (by omega)
  simp only [build_huffman_tree, he, List.head?_cons] at hb
  exact ⟨f, l, r, (Option.some_inj.mp hb).symm⟩

/-- C9 (amended): every code of the substitution table is non-empty as
soon as the frequency table has at least two entries, since the root is
then an internal node and every recorded path starts with that node's
branching bit.  A single-entry table yields the empty code (the claim's
original form fails there; see the counterexample). -/
theorem codes_nonempty_of_two_symbols (freqs : List (Byte × Nat)) (root : HuffmanNode)
    (h2 : 2 ≤ freqs.length) (hb : build_huffman_tree freqs = some root)
    (e : Byte × List Bool) (he : e ∈ substitution_table root) : e.2 ≠ [] := by
  obtain ⟨f, l, r, hr⟩ := build_internal freqs root h2 hb
  subst hr
  have hm := mem_substitution_table _ e he
  simp only [cstList, List.mem_append] at hm
  rcases hm with h | h
  · obtain ⟨s, hs⟩ := cstList_shape l _ e h
    rw [hs]
    simp
  · obtain ⟨s, hs⟩ := cstList_shape r _ e h
    rw [hs]
    simp

/-- C9 witness: with two symbols of weight one, the code of byte 65 is
the non-empty string 0. -/
theorem codes_nonempty_of_two_symbols_witness :
    (((65 : Byte), [false]) : Byte × List Bool).2 ≠ ([] : List Bool) :=
  codes_nonempty_of_two_symbols [(65, 1), (66, 1)]
    (HuffmanNode.internal 2 (HuffmanNode.leaf 65 1) (HuffmanNode.leaf 66 1))
    (by decide) (by decide) (65, [false]) (by decide)

/-- C9 counterexample: for the single-entry frequency table of an input
of four 65 bytes, the tree is a bare leaf and the recorded code of byte
65 is the empty bit string, so the claim that every entry maps to a
non-empty bit string fails for single-entry tables. -/
theorem single_entry_code_is_empty :
    build_huffman_tree [(65, 4)] = some (HuffmanNode.leaf 65 4) ∧
    (65, ([] : List Bool)) ∈ substitution_table (HuffmanNode.leaf 65 4) := by
  refine ⟨by decide, by decide⟩

/-! The tie-break order of the priority queue. -/

/-- C7 counterexample: on four symbols of equal frequency, inserted in
ascending byte order, the priority queue of the program extracts 65 and
then 67 (the binary-heap pop promotes the node that ended up at index 2
of the vector), not 65 and then 66 as the claimed stable (frequency,
insertion order) policy would; the resulting trees, and hence the
codes, differ. -/
theorem heap_order_differs_from_stable_order :
    build_huffman_tree [(65, 1), (66, 1), (67, 1), (68, 1)] =
      some (HuffmanNode.internal 4
        (HuffmanNode.internal 2 (HuffmanNode.leaf 65 1) (HuffmanNode.leaf 67 1))
        (HuffmanNode.internal 2 (HuffmanNode.leaf 66 1) (HuffmanNode.leaf 68 1))) ∧
    build_huffman_tree_stable [(65, 1), (66, 1), (67, 1), (68, 1)] =
      some (HuffmanNode.internal 4
        (HuffmanNode.internal 2 (HuffmanNode.leaf 65 1) (HuffmanNode.leaf 66 1))
        (HuffmanNode.internal 2 (HuffmanNode.leaf 67 1) (HuffmanNode.leaf 68 1))) ∧
    build_huffman_tree [(65, 1), (66, 1), (67, 1), (68, 1)] ≠
      build_huffman_tree_stable [(65, 1), (66, 1), (67, 1), (68, 1)] := by
  refine ⟨by decide, by decide, by decide⟩

/-! Little-endian serialization and its inverse. -/

theorem length_leBytes (n v : Nat) : (leBytes n v).length = n := by
  induction n generalizing v with
  | zero => rfl
  | succ k ih => simp [leBytes, ih]

theorem leVal_leBytes (n v : Nat) : leVal (leBytes n v) = v % 256 ^ n := by
  induction n generalizing v with
  | zero => simp [leBytes, leVal, Nat.mod_one]
  | succ k ih =>
    show v % 256 + 256 * leVal (leBytes k (v / 256)) = v % 256 ^ (k + 1)
    rw [ih, pow_succ', Nat.mod_mul]

theorem readLE_leBytes (n v : Nat) (rest : List Byte) :
    readLE n (leBytes n v ++ rest) = some (v % 256 ^ n, rest) := by
  have hl : (leBytes n v).length = n := length_leBytes n v
  unfold readLE
  rw [if_pos (by rw [List.length_append, hl]; omega)]
  rw [List.take_left' hl, List.drop_left' hl, leVal_leBytes]

theorem readLE_exact (n v : Nat) (rest : List Byte) (hv : v < 256 ^ n) :
    readLE n (leBytes n v ++ rest) = some (v, rest) := by
  rw [readLE_leBytes, Nat.mod_eq_of_lt hv]

theorem readEntries_exact (freqs : List (Byte × Nat)) :
    ∀ (m : List (Byte × Nat)) (tail : List Byte),
    (∀ p ∈ freqs, p.1 < 256 ∧ p.2 < 4294967296) →
    readEntries freqs.length (entryBytes freqs ++ tail) m
      = some (freqs.foldl (fun m p => mapAssign m p.1 p.2) m, tail) := by
  induction freqs with
  | nil => intro m tail _; rfl
  | cons p rest ih =>
    intro m tail h
    have hp := h p (List.mem_cons_self _ _)
    have hmod : p.1 % 256 = p.1 := Nat.mod_eq_of_lt hp.1
    have hc : p.2 < 256 ^ 4 := by
      have := hp.2
      norm_num
      omega
    simp only [entryBytes, List.length_cons, List.cons_append, List.append_assoc]
    simp only [readEntries]
    rw [readLE_exact 4 p.2 _ hc]
    simp only [Option.some_bind, hmod]
    rw [ih _ tail (fun q hq => h q (List.mem_cons_of_mem _ hq))]
    simp

theorem mapAssign_append {α : Type} (m : List (Byte × α)) (b : Byte) (x : α)
    (h : ∀ p ∈ m, p.1 < b) : mapAssign m b x = m ++ [(b, x)] := by
  induction m with
  | nil => rfl
  | cons q rest ih =>
    obtain ⟨k, v⟩ := q
    have hq : k < b := h (k, v) (List.mem_cons_self _ _)
    simp only [mapAssign, if_neg (Nat.lt_asymm hq),
      if_neg (fun e => Nat.lt_irrefl k (e ▸ hq) : ¬b = k)]
    rw [ih fun q' hq' => h q' (List.mem_cons_of_mem _ hq')]
    simp

theorem fold_mapAssign_sorted :
    ∀ (l m : List (Byte × Nat)),
    List.Pairwise (fun p q : Byte × Nat => p.1 < q.1) (m ++ l) →
    l.foldl (fun m p => mapAssign m p.1 p.2) m = m ++ l := by
  intro l
  induction l with
  | nil => intro m _; simp
  | cons p rest ih =>
    intro m h
    have hlt : ∀ q ∈ m, q.1 < p.1 := fun q hq =>
      (List.pairwise_append.mp h).2.2 q hq p (List.mem_cons_self _ _)
    simp only [List.foldl_cons]
    rw [mapAssign_append m p.1 p.2 hlt]
    have heta : m ++ [(p.1, p.2)] = m ++ [p] := by simp
    rw [heta, ih (m ++ [p]) (by rw [List.append_assoc]; exact h)]
    simp

theorem pairwise_keys_length_le (m : List (Byte × Nat))
    (hp : List.Pairwise (fun p q : Byte × Nat => p.1 < q.1) m)
    (hb : ∀ p ∈ m, p.1 < 256) : m.length ≤ 256 := by
  have hnd : (m.map Prod.fst).Nodup :=
    List.Pairwise.map _ (fun a b h => Nat.ne_of_lt h) hp
  have hsub : (m.map Prod.fst).toFinset ⊆ Finset.range 256 := by
    intro b hbm
    rw [List.mem_toFinset] at hbm
    obtain ⟨p, hpm, hpb⟩ := List.mem_map.mp hbm
    exact Finset.mem_range.mpr (hpb ▸ hb p hpm)
  have hcard := Finset.card_le_card hsub
  rw [List.toFinset_card_of_nodup hnd, Finset.card_range] at hcard
  simpa using hcard

/-- C7 (amended): ties in the priority queue follow the binary-heap
order of the vector, not insertion order (see the counterexample);
encoder and decoder nevertheless obtain bit-identical trees because the
decoder reads back from the container exactly the frequency table the
encoder serialized (in ascending byte order), along with the padding,
and both sides run the same deterministic build on it. -/
theorem container_rebuilds_frequency_table (data : List Byte) (hne : data ≠ [])
    (hbyte : ∀ b ∈ data, b < 256) (hlen : data.length < 4294967296) :
    ∃ r d, compress data = some r ∧
      r.frequencies = count_frequencies data ∧
      read_compressed_file
        (write_compressed_file 4 r.original_size r.encoded r.padding r.frequencies)
        = some (r.original_size, d, r.frequencies, r.padding) := by
  obtain ⟨root, hroot⟩ := build_some _ (count_frequencies_ne_nil data hne)
  have hcomp : compress data = some
      ⟨data.length % 4294967296,
       encodeData (substitution_table root) data,
       8 - ((substitution_table root).foldl
         (fun acc p =>
           (acc + (((count_frequencies data).lookup p.1).getD 0) * p.2.length) % 4294967296) 0) % 8,
       count_frequencies data⟩ := by
    simp only [compress, hroot]
  set orig := data.length % 4294967296 with horig
  set enc := encodeData (substitution_table root) data with henc
  set padding := 8 - ((substitution_table root).foldl
    (fun acc p =>
      (acc + (((count_frequencies data).lookup p.1).getD 0) * p.2.length) % 4294967296) 0) % 8
    with hpadding
  set freqs := count_frequencies data with hfreqs
  have hentry : ∀ p ∈ freqs, p.1 < 256 ∧ p.2 < 4294967296 := by
    intro p hp
    obtain ⟨h1, h2⟩ := mem_count_frequencies data p hp
    refine ⟨hbyte _ h1, ?_⟩
    rw [h2]
    exact lt_of_le_of_lt (List.count_le_length _ _) hlen
  have hflen : freqs.length < 4294967296 := by
    have := pairwise_keys_length_le freqs (count_frequencies_pairwise data)
      (fun p hp => (hentry p hp).1)
    omega
  have e256 : (256 : Nat) ^ 4 = 4294967296 := by norm_num
  have h1 : readLE 4 (leBytes 4 orig ++ (leBytes 4 (packed_size enc padding) ++
      (leBytes 4 padding ++ (leBytes 4 freqs.length ++
        (entryBytes freqs ++ packBits (enc ++ List.replicate padding false)))))) =
      some (orig, leBytes 4 (packed_size enc padding) ++
      (leBytes 4 padding ++ (leBytes 4 freqs.length ++
        (entryBytes freqs ++ packBits (enc ++ List.replicate padding false))))) :=
    readLE_exact 4 orig _ (by rw [e256, horig]; exact Nat.mod_lt _ (by norm_num))
  have h2 : readLE 4 (leBytes 4 (packed_size enc padding) ++
      (leBytes 4 padding ++ (leBytes 4 freqs.length ++
        (entryBytes freqs ++ packBits (enc ++ List.replicate padding false))))) =
      some (packed_size enc padding % 256 ^ 4, leBytes 4 padding ++
        (leBytes 4 freqs.length ++
        (entryBytes freqs ++ packBits (enc ++ List.replicate padding false)))) :=
    readLE_leBytes 4 (packed_size enc padding) _
  have h3 : readLE 4 (leBytes 4 padding ++ (leBytes 4 freqs.length ++
        (entryBytes freqs ++ packBits (enc ++ List.replicate padding false)))) =
      some (padding, leBytes 4 freqs.length ++
        (entryBytes freqs ++ packBits (enc ++ List.replicate padding false))) :=
    readLE_exact 4 padding _ (by rw [e256, hpadding]; omega)
  have h4 : readLE 4 (leBytes 4 freqs.length ++
        (entryBytes freqs ++ packBits (enc ++ List.replicate padding false))) =
      some (freqs.length, entryBytes freqs ++ packBits (enc ++ List.replicate padding false)) :=
    readLE_exact 4 freqs.length _ (by rw [e256]; exact hflen)
  have hent : readEntries freqs.length
      (entryBytes freqs ++ packBits (enc ++ List.replicate padding false)) [] =
      some (freqs, packBits (enc ++ List.replicate padding false)) := by
    rw [readEntries_exact freqs [] _ hentry]
    rw [fold_mapAssign_sorted freqs [] (by simpa using count_frequencies_pairwise data)]
    simp
  refine ⟨_,
    (packBits (enc ++ List.replicate padding false)).take (packed_size enc padding % 256 ^ 4)
      ++ List.replicate ((packed_size enc padding % 256 ^ 4)
        - (packBits (enc ++ List.replicate padding false)).length) 0,
    hcomp, rfl, ?_⟩
  show read_compressed_file (write_compressed_file 4 orig enc padding freqs) = _
  simp only [write_compressed_file, List.append_assoc]
  simp only [read_compressed_file, h1, Option.some_bind, h2, h3, h4, hent, Option.map_some']

/-- C7 witness: the container round-trips the frequency table of the
input 65 66. -/
theorem container_rebuilds_frequency_table_witness :
    ∃ r d, compress [65, 66] = some r ∧
      r.frequencies = count_frequencies [65, 66] ∧
      read_compressed_file
        (write_compressed_file 4 r.original_size r.encoded r.padding r.frequencies)
        = some (r.original_size, d, r.frequencies, r.padding) :=
  container_rebuilds_frequency_table [65, 66] (by decide) (by decide) (by decide)

end Huffman
